import Mathlib

/-!
Verification of the s3-cas content-addressable storage core.

The metadata store is modelled as association-list trees holding decoded
records (the on-disk codecs round-trip, so trees of decoded values are an
exact model of trees of encoded bytes).  Byte strings are lists of naturals
ordered lexicographically, exactly as Rust orders `[u8]` and `String`.
-/

/-- Raw byte strings (object keys, path bytes, payloads). -/
abbrev Bytes := List Nat

/-- A block identifier: the 16-byte MD5 digest of a block's contents. -/
abbrev BlockID := Bytes

/-- Constant `BLOCKID_SIZE` from `metastore`: an MD5 digest is 16 bytes. -/
def BLOCKID_SIZE : Nat := 16

/-- Constant `BLOCK_SIZE` from `cas/fs.rs`: chunks are 1 MiB. -/
def BLOCK_SIZE : Nat := 2 ^ 20

/-- Strict lexicographic order on byte strings, as Rust compares `[u8]`
and `String` (UTF-8 bytes). -/
def bytesLt : Bytes → Bytes → Bool
  | [], [] => false
  | [], _ :: _ => true
  | _ :: _, [] => false
  | a :: as, b :: bs => a < b || (a == b && bytesLt as bs)

/-- Non-strict lexicographic order on byte strings. -/
def bytesLe (a b : Bytes) : Bool := !(bytesLt b a)

/-- Predicate `hasPfx p k`: true when byte string `k` starts with `p`
(Rust `starts_with`, fjall prefix iteration). -/
def hasPfx : Bytes → Bytes → Bool
  | [], _ => true
  | _ :: _, [] => false
  | a :: as, b :: bs => a == b && hasPfx as bs

/-- A key-value tree (a fjall partition / sled tree), modelled as an
association list looked up front-to-back.  Well-formed trees have
duplicate-free keys; the operations preserve this. -/
abbrev KvTree (α β : Type) := List (α × β)

/-- Point lookup (`partition.get`). -/
def treeGet [DecidableEq α] : KvTree α β → α → Option β
  | [], _ => none
  | (k', v) :: rest, k => if k' = k then some v else treeGet rest k

/-- Insert or overwrite (`partition.insert`). -/
def treeInsert [DecidableEq α] : KvTree α β → α → β → KvTree α β
  | [], k, v => [(k, v)]
  | (k', v') :: rest, k, v =>
      if k' = k then (k, v) :: rest else (k', v') :: treeInsert rest k v

/-- Delete a key (`partition.remove`). -/
def treeRemove [DecidableEq α] : KvTree α β → α → KvTree α β
  | [], _ => []
  | (k', v) :: rest, k =>
      if k' = k then treeRemove rest k else (k', v) :: treeRemove rest k

/-- Modelled from the spec: `metastore/block.rs` is absent from the source
tree.  Per spec §3 a `Block` stores the byte length of the original chunk,
the allocated path (a byte prefix of the BlockID) and a reference count,
and per §4.3 `Block::new` creates a block with `rc = 1`. -/
structure Block where
  size : Nat
  path : Bytes
  rc : Nat
deriving DecidableEq, Repr

/-- Modelled from the spec: `Block::new(data_len, path)` starts at `rc = 1`. -/
def Block.new (dataLen : Nat) (path : Bytes) : Block :=
  { size := dataLen, path := path, rc := 1 }

/-- Modelled from the spec: bump the reference count. -/
def Block.incrementRefcount (b : Block) : Block := { b with rc := b.rc + 1 }

/-- Modelled from the spec: drop the reference count. -/
def Block.decrementRefcount (b : Block) : Block := { b with rc := b.rc - 1 }

/-- Modelled from the spec: `metastore/object.rs` is absent from the source
tree.  Per spec §3 object payload metadata is inline bytes, a single-part
block list, or a multipart block list with its part count. -/
inductive ObjectData where
  | Inline (data : Bytes)
  | SinglePart (blocks : List BlockID)
  | MultiPart (blocks : List BlockID) (parts : Nat)
deriving DecidableEq, Repr

/-- Modelled from the spec: an `Object` record (§3); `ctime` doubles as the
last-modified timestamp surfaced by `format_ctime`. -/
structure Object where
  size : Nat
  eTag : BlockID
  ctime : Nat
  data : ObjectData
deriving DecidableEq, Repr

/-- Modelled from the spec: `obj.blocks()` — the BlockIDs referenced by the
object; inline objects reference none. -/
def Object.blocks : Object → List BlockID
  | { data := ObjectData.Inline _, .. } => []
  | { data := ObjectData.SinglePart bs, .. } => bs
  | { data := ObjectData.MultiPart bs _, .. } => bs

/-- Modelled from the spec: `obj.touch()` refreshes the last-modified
timestamp. -/
def Object.touch (o : Object) (now : Nat) : Object := { o with ctime := now }

/-- The shared block-tree / path-tree pair of a metastore
(`_BLOCKS` and `_PATHS` partitions). -/
structure FjallState where
  blocks : KvTree BlockID Block
  paths : KvTree Bytes BlockID
deriving DecidableEq, Repr

/-- The path-search loop of `FjallStore::write_block`
(`fjall.rs:248-259`, identically `fjall_notx.rs:275-285`):
`idx` starts at 0 and `for index in 1..BLOCKID_SIZE` stops at the first
prefix length whose entry is absent, so the lengths tried are 1 to 15 and
a fruitless loop leaves `idx = 0`. -/
def findFreePathIdxAux (paths : KvTree Bytes BlockID) (hash : BlockID) :
    Nat → Nat → Nat
  | 0, _ => 0
  | fuel + 1, i =>
      if (treeGet paths (hash.take i)).isNone then i
      else findFreePathIdxAux paths hash fuel (i + 1)

/-- Entry point of the path-search loop: indices 1 to `BLOCKID_SIZE - 1`. -/
def findFreePathIdx (paths : KvTree Bytes BlockID) (hash : BlockID) : Nat :=
  findFreePathIdxAux paths hash (BLOCKID_SIZE - 1) 1

/-- Model of `FjallStore::write_block` (`fjall.rs:219-275`): if the block exists,
bump its refcount unless the key already owns it; otherwise allocate the
path found by the loop (even when the loop found none and `idx = 0`),
insert the path entry and a fresh `rc = 1` block.  Returns the state after
commit together with `(is_new, block)`. -/
def fjallWriteBlock (st : FjallState) (blockHash : BlockID) (dataLen : Nat)
    (keyHasBlock : Bool) : FjallState × Bool × Block :=
  match treeGet st.blocks blockHash with
  | some block =>
      if keyHasBlock then (st, false, block)
      else
        let block' := block.incrementRefcount
        ({ st with blocks := treeInsert st.blocks blockHash block' },
          false, block')
  | none =>
      let idx := findFreePathIdx st.paths blockHash
      let block := Block.new dataLen (blockHash.take idx)
      ({ blocks := treeInsert st.blocks blockHash block,
         paths := treeInsert st.paths (blockHash.take idx) blockHash },
        true, block)

/-- The compensation log of `FjallNoTransaction` (`fjall_notx.rs:217-231`):
the BlockIDs and path keys recorded while the transaction ran. -/
structure NotxTx where
  insertedBlocks : List BlockID
  insertedPaths : List Bytes
deriving DecidableEq, Repr

/-- A fresh `FjallNoTransaction`: empty compensation log. -/
def NotxTx.new : NotxTx := { insertedBlocks := [], insertedPaths := [] }

/-- Model of `FjallNoTransaction::commit` (`fjall_notx.rs:237-239`): a no-op that
returns `Ok(())` touching nothing. -/
def notxCommit (_tx : NotxTx) (st : FjallState) : FjallState := st

/-- Model of `FjallNoTransaction::rollback` (`fjall_notx.rs:241-249`): remove every
recorded BlockID from the block partition and every recorded path from the
path partition. -/
def notxRollback (tx : NotxTx) (st : FjallState) : FjallState :=
  { blocks := tx.insertedBlocks.foldl (fun t k => treeRemove t k) st.blocks,
    paths := tx.insertedPaths.foldl (fun t k => treeRemove t k) st.paths }

/-- Model of `FjallNoTransaction::write_block` (`fjall_notx.rs:251-301`): same tree
mutations as `FjallStore::write_block`, applied directly to the partitions,
recording in the log the BlockID whenever the block entry was written
(including a pure refcount bump of a pre-existing block) and the path key
whenever a path entry was inserted. -/
def notxWriteBlock (tx : NotxTx) (st : FjallState) (blockHash : BlockID)
    (dataLen : Nat) (keyHasBlock : Bool) :
    NotxTx × FjallState × Bool × Block :=
  match treeGet st.blocks blockHash with
  | some block =>
      if keyHasBlock then (tx, st, false, block)
      else
        let block' := block.incrementRefcount
        ({ tx with insertedBlocks := tx.insertedBlocks ++ [blockHash] },
          { st with blocks := treeInsert st.blocks blockHash block' },
          false, block')
  | none =>
      let idx := findFreePathIdx st.paths blockHash
      let block := Block.new dataLen (blockHash.take idx)
      ({ insertedBlocks := tx.insertedBlocks ++ [blockHash],
         insertedPaths := tx.insertedPaths ++ [blockHash.take idx] },
        { blocks := treeInsert st.blocks blockHash block,
          paths := treeInsert st.paths (blockHash.take idx) blockHash },
        true, block)

/-- The per-block body of the delete loop shared by
`FjallStore::delete_object` (`fjall.rs:193-214`) and the sled transaction
in `CasFS::delete_object` (`cas/fs.rs:185-210`): a missing block is
skipped; a block with `rc == 1` is removed from the block tree and
collected for disk deletion; otherwise its refcount is decremented and it
is written back. -/
def deleteBlocksStep (acc : KvTree BlockID Block × List Block)
    (blockId : BlockID) : KvTree BlockID Block × List Block :=
  match treeGet acc.1 blockId with
  | none => acc
  | some block =>
      if block.rc == 1 then (treeRemove acc.1 blockId, acc.2 ++ [block])
      else (treeInsert acc.1 blockId block.decrementRefcount, acc.2)

/-- The transactional part of object deletion (`fjall.rs:176-217`,
`cas/fs.rs:175-223`): fetch the object (absent means done with no blocks
to delete), remove its record from the bucket tree, then run the delete
loop over its BlockIDs.  The path tree is not part of the transaction. -/
def deleteObjectTx (bucket : KvTree Bytes Object)
    (blocks : KvTree BlockID Block) (key : Bytes) :
    KvTree Bytes Object × KvTree BlockID Block × List Block :=
  match treeGet bucket key with
  | none => (bucket, blocks, [])
  | some obj =>
      let res := obj.blocks.foldl deleteBlocksStep (blocks, [])
      (treeRemove bucket key, res.1, res.2)

/-- Full per-tenant state of the sled-backed `CasFS` (`cas/fs.rs`): one
bucket tree, the shared block and path trees, and the set of block files
on disk, keyed by their allocated path bytes (the hex split mapping path
bytes to a file location is a deterministic injection, spec §4.2). -/
structure CasState where
  bucket : KvTree Bytes Object
  blocks : KvTree BlockID Block
  paths : KvTree Bytes BlockID
  disk : List Bytes
deriving DecidableEq, Repr

/-- The post-commit loop of `CasFS::delete_object` (`cas/fs.rs:226-240`),
with I/O outcomes given by oracles on the file's path bytes: for each
collected block, `remove_file(...).expect(...)` panics on failure —
stopping all further processing with the path entry still in place — and
only after a successful unlink is the path entry removed, a failure of
that removal being logged and skipped. -/
def unlinkLoop (unlinkOk rmPathOk : Bytes → Bool) :
    List Block → KvTree Bytes BlockID → List Bytes →
    KvTree Bytes BlockID × List Bytes
  | [], paths, disk => (paths, disk)
  | b :: rest, paths, disk =>
      if unlinkOk b.path then
        let disk' := disk.filter (fun p => p ≠ b.path)
        if rmPathOk b.path then
          unlinkLoop unlinkOk rmPathOk rest (treeRemove paths b.path) disk'
        else
          unlinkLoop unlinkOk rmPathOk rest paths disk'
      else (paths, disk)

/-- Model of `CasFS::delete_object` (`cas/fs.rs:160-244`, `refcount` feature): the
transaction over the bucket and block trees, followed by the unlink loop
over the collected blocks. -/
def casDeleteObject (unlinkOk rmPathOk : Bytes → Bool) (st : CasState)
    (key : Bytes) : CasState × List Block :=
  let txRes := deleteObjectTx st.bucket st.blocks key
  let post := unlinkLoop unlinkOk rmPathOk txRes.2.2 st.paths st.disk
  ({ bucket := txRes.1, blocks := txRes.2.1,
     paths := post.1, disk := post.2 }, txRes.2.2)

/-- Model of `CasFS::copy_object` (`cas/fs.rs:436-474`): read the object record
from the tree it calls `source_bk`, refresh its timestamp with `touch`,
and insert it at the destination; `None` models the `NoSuchKey` error.
The block tree is never opened: it is returned unchanged. -/
def casCopyObject (blocks : KvTree BlockID Block)
    (srcTree dstTree : KvTree Bytes Object) (srcKey dstKey : Bytes)
    (now : Nat) :
    Option (KvTree BlockID Block × KvTree Bytes Object × KvTree Bytes Object × Object) :=
  match treeGet srcTree srcKey with
  | none => none
  | some objMeta =>
      let objMeta' := objMeta.touch now
      some (blocks, srcTree, treeInsert dstTree dstKey objMeta', objMeta')

/-- Modelled from the spec: `cas/buffered_byte_stream.rs` is absent from
the source tree.  Per spec §4.3 the buffering adapter re-chunks the input
into exact `BLOCK_SIZE` pieces, emitting a final smaller chunk when the
stream length is not a multiple, and nothing for an empty stream. -/
def chunkify : Bytes → List Bytes
  | [] => []
  | a :: rest =>
      (a :: rest).take BLOCK_SIZE :: chunkify ((a :: rest).drop BLOCK_SIZE)
termination_by data => data.length
decreasing_by
  simp [BLOCK_SIZE]
  omega

/-- The per-chunk transaction of `CasFS::store_bytes`
(`cas/fs.rs:309-350`, `refcount` feature): an existing block gets its
refcount bumped and written back (`should_write = false`); a new block
takes the first free path of length 1 to 15 and is inserted with its path
entry (`should_write = true`); if the loop finds no free path the code
hits `unreachable!()`, modelled as `none`. -/
def storeChunkTx (blocks : KvTree BlockID Block)
    (paths : KvTree Bytes BlockID) (blockHash : BlockID) (dataLen : Nat) :
    Option (KvTree BlockID Block × KvTree Bytes BlockID × Bool) :=
  match treeGet blocks blockHash with
  | some block =>
      some (treeInsert blocks blockHash block.incrementRefcount, paths, false)
  | none =>
      match (List.range BLOCKID_SIZE).find?
          (fun i => 1 ≤ i && (treeGet paths (blockHash.take i)).isNone) with
      | some idx =>
          some (treeInsert blocks blockHash
                  (Block.new dataLen (blockHash.take idx)),
                treeInsert paths (blockHash.take idx) blockHash, true)
      | none => none

/-- The metadata effect of one `store_bytes` run: the per-chunk
transactions, atomic and serialized by sled, applied in the order the
concurrent workers (at most 5 in flight) happen to commit them — an
arbitrary permutation of the input chunks.  `none` models a panic of the
`unreachable!()` arm. -/
def storeBytesState (md5 : Bytes → BlockID) :
    List Bytes → KvTree BlockID Block × KvTree Bytes BlockID →
    Option (KvTree BlockID Block × KvTree Bytes BlockID)
  | [], st => some st
  | chunk :: rest, st =>
      match storeChunkTx st.1 st.2 (md5 chunk) chunk.length with
      | none => none
      | some res => storeBytesState md5 rest (res.1, res.2.1)

/-- Insertion into a list sorted by chunk index, realizing
`ids.sort_by_key(|a| a.0)` (`cas/fs.rs:416`); the sort key — the
zero-based chunk index — is distinct across entries, so any comparison
sort produces the same list as Rust's stable sort. -/
def insertByKey (p : Nat × BlockID) : List (Nat × BlockID) → List (Nat × BlockID)
  | [] => [p]
  | q :: rest => if p.1 ≤ q.1 then p :: q :: rest else q :: insertByKey p rest

/-- Model of `sort_by_key` on the collected `(index, BlockID)` channel messages. -/
def sortByKey (l : List (Nat × BlockID)) : List (Nat × BlockID) :=
  l.foldr insertByKey []

/-- The value returned by `CasFS::store_bytes` (`cas/fs.rs:266-423`) on a
successful run, given the channel messages in their arrival order: the
BlockIDs sorted back by chunk index, the running whole-stream hash (the
digest of the concatenated chunks), and the accumulated byte count. -/
def storeBytesResult (md5 : Bytes → BlockID) (data : Bytes)
    (arrival : List (Nat × BlockID)) : List BlockID × BlockID × Nat :=
  ((sortByKey arrival).map Prod.snd,
   md5 (chunkify data).flatten,
   ((chunkify data).map List.length).sum)

/-- The effective start of a listing (`fjall.rs:421-425`,
`fjall_notx.rs:398-402`): `std::cmp::max` of continuation token and
`start_after` when both are given, otherwise whichever exists. -/
def effectiveStart (continuationToken startAfter : Option Bytes) :
    Option Bytes :=
  match continuationToken, startAfter with
  | some token, some start => some (if bytesLt token start then start else token)
  | some token, none => some token
  | none, start => start

/-- Model of `FjallTree::range_filter` (`fjall.rs:415-466`, identically
`fjall_notx.rs:392-443`) over a bucket tree listed in fjall's ascending
key order: the guarded match choosing the base iterator (empty iterator /
prefix scan with the token discarded / prefix scan / range scan from just
past the token / full scan), then `skip_while(key <= ctsa)` when both a
prefix and a surviving token are present. -/
def rangeFilterModel (tree : KvTree Bytes Object)
    (startAfter pfx continuationToken : Option Bytes) : KvTree Bytes Object :=
  let ctsa := effectiveStart continuationToken startAfter
  match pfx, ctsa with
  | some p, some c =>
      if bytesLt p c && !(hasPfx p c) then []
      else if bytesLt c p then tree.filter (fun kv => hasPfx p kv.1)
      else (tree.filter (fun kv => hasPfx p kv.1)).dropWhile
             (fun kv => bytesLe kv.1 c)
  | some p, none => tree.filter (fun kv => hasPfx p kv.1)
  | none, some c => tree.filter (fun kv => bytesLe (c ++ [0]) kv.1)
  | none, none => tree

/-- The listing the spec promises of `range_filter`: exactly the keys
bearing the prefix that are strictly greater than the effective start. -/
def rangeFilterListing (tree : KvTree Bytes Object)
    (startAfter pfx continuationToken : Option Bytes) : KvTree Bytes Object :=
  let es := effectiveStart continuationToken startAfter
  tree.filter (fun kv =>
    (match pfx with
     | some p => hasPfx p kv.1
     | none => true) &&
    (match es with
     | some c => bytesLt c kv.1
     | none => true))

/-- Constant `MAX_KEYS` (`cas/fs.rs:51`): the listing page cap, an `i64`. -/
def MAX_KEYS : Int := 1000

/-- Rust's `as usize` cast of an `i64` value: reduction modulo `2^64`. -/
def asUsize (i : Int) : Nat := (i % (2 : Int) ^ 64).toNat

/-- Model of `CasFS::list_objects` (`cas/fs.rs:550-622`) over a bucket tree listed
in sled's ascending key order.  `key_count` clamps `max_keys` from above
at `MAX_KEYS` only; the scan starts at the marker (else the prefix, else
the beginning), `take_while` keeps the prefixed run, and `key_count + 1`
entries are taken with Rust's `as usize` wrap-around.  The page is
truncated when exactly `key_count as usize + 1` entries arrived, in which
case the last entry is popped (`unwrap` panics — `none` — on an empty
page) to become the next marker, surfaced only when the request carried a
marker.  Returns `(contents, is_truncated, next_marker)`.

The stream paged through before `.take(...)` (`cas/fs.rs:579-600`): scan
from the marker (else the prefix, else the beginning) and keep the
leading run of keys bearing the prefix. -/
def listObjectsMatching (tree : KvTree Bytes Object)
    (pfx marker : Option Bytes) : KvTree Bytes Object :=
  let startBytes : Bytes :=
    match marker, pfx with
    | some m, _ => m
    | none, some p => p
    | none, none => []
  let pfxBytes : Bytes :=
    match pfx with
    | some p => p
    | none => []
  (tree.filter (fun kv => bytesLe startBytes kv.1)).takeWhile
    (fun kv => hasPfx pfxBytes kv.1)

/-- The paging tail of `list_objects` (`cas/fs.rs:601-621`), after
`key_count` has been computed. -/
def listObjectsPage (tree : KvTree Bytes Object) (pfx marker : Option Bytes)
    (keyCount : Int) :
    Option (KvTree Bytes Object × Bool × Option Bytes) :=
  let objects :=
    (listObjectsMatching tree pfx marker).take (asUsize (keyCount + 1))
  let truncated := objects.length == (asUsize keyCount + 1) % 2 ^ 64
  if truncated then
    match objects.getLast? with
    | none => none
    | some last =>
        some (objects.dropLast, true,
          match marker with
          | some _ => some last.1
          | none => none)
  else some (objects, false, none)

def listObjects (tree : KvTree Bytes Object) (pfx marker : Option Bytes)
    (maxKeys : Option Int) :
    Option (KvTree Bytes Object × Bool × Option Bytes) :=
  listObjectsPage tree pfx marker
    (match maxKeys with
     | some mk => if mk > MAX_KEYS then MAX_KEYS else mk
     | none => MAX_KEYS)

theorem treeGet_treeInsert [DecidableEq α] (t : KvTree α β) (k k' : α)
    (v : β) :
    treeGet (treeInsert t k v) k' = if k = k' then some v else treeGet t k' := by
  induction t with
  | nil => by_cases h : k = k' <;> simp [treeInsert, treeGet, h]
  | cons kv rest ih =>
      obtain ⟨k₀, v₀⟩ := kv
      by_cases h₀ : k₀ = k
      · by_cases h : k = k' <;> simp [treeInsert, treeGet, h₀, h]
      · by_cases h : k₀ = k'
        · subst h
          have : ¬ k = k₀ := fun hc => h₀ hc.symm
          simp [treeInsert, treeGet, h₀, this]
        · simp [treeInsert, treeGet, h₀, h, ih]

theorem treeGet_treeRemove [DecidableEq α] (t : KvTree α β) (k k' : α) :
    treeGet (treeRemove t k) k' = if k = k' then none else treeGet t k' := by
  induction t with
  | nil => by_cases h : k = k' <;> simp [treeRemove, treeGet, h]
  | cons kv rest ih =>
      obtain ⟨k₀, v₀⟩ := kv
      by_cases h₀ : k₀ = k
      · subst h₀
        by_cases h : k₀ = k'
        · subst h
          simp [treeRemove, treeGet, ih]
        · have : ¬ k₀ = k' := h
          simp [treeRemove, treeGet, ih, this]
      · by_cases h : k₀ = k'
        · subst h
          have hkk : ¬ k = k₀ := fun hc => h₀ hc.symm
          simp [treeRemove, treeGet, h₀, hkk]
        · simp [treeRemove, treeGet, h₀, h, ih]

theorem treeInsert_length_of_present [DecidableEq α] (t : KvTree α β)
    (k : α) (v v' : β) (h : treeGet t k = some v) :
    (treeInsert t k v').length = t.length := by
  induction t with
  | nil => simp [treeGet] at h
  | cons kv rest ih =>
      obtain ⟨k₀, v₀⟩ := kv
      by_cases h₀ : k₀ = k
      · simp [treeInsert, h₀]
      · simp [treeGet, h₀] at h
        simp [treeInsert, h₀, ih h]

theorem treeGet_foldl_remove [DecidableEq α] (ks : List α) (t : KvTree α β)
    (k : α) :
    treeGet (ks.foldl (fun acc x => treeRemove acc x) t) k =
      if k ∈ ks then none else treeGet t k := by
  induction ks generalizing t with
  | nil => simp
  | cons x rest ih =>
      simp only [List.foldl_cons, ih, treeGet_treeRemove, List.mem_cons]
      by_cases hr : k ∈ rest
      · simp [hr]
      · by_cases hx : k = x
        · subst hx
          simp [hr]
        · have hxk : ¬ x = k := fun hc => hx hc.symm
          simp [hr, hx, hxk]

/-- The block-tree invariant of spec §8: every stored block has a positive
reference count. -/
def rcInvariant (blocks : KvTree BlockID Block) : Prop :=
  ∀ k b, treeGet blocks k = some b → 1 ≤ b.rc

/-- A path-tree state in which every proper prefix of a 16-byte BlockID is
already allocated (owned here by 15 other blocks), while the BlockID
itself is absent from the block tree. -/
def c1ExhaustedState : FjallState :=
  { blocks := [],
    paths := (List.range 15).map
      (fun i => (List.replicate (i + 1) 0, List.replicate (i + 1) 0 ++ List.replicate (15 - i) 9)) }

/-- C1: `write_block` on a BlockID absent from the block tree whose
prefixes of lengths 1..15 are all taken does NOT signal an invariant
violation: the loop `for index in 1..BLOCKID_SIZE` never tries the full
16-byte prefix, leaves `idx = 0`, and the code silently allocates the
empty prefix as the block's path, overwriting the empty-key path entry. -/
theorem c1_write_block_silently_allocates_empty_path :
    (fjallWriteBlock c1ExhaustedState (List.replicate 16 0) 5 false).2.1 = true ∧
    (fjallWriteBlock c1ExhaustedState (List.replicate 16 0) 5 false).2.2.path = [] ∧
    treeGet (fjallWriteBlock c1ExhaustedState (List.replicate 16 0) 5 false).1.paths []
      = some (List.replicate 16 0) ∧
    (notxWriteBlock NotxTx.new c1ExhaustedState (List.replicate 16 0) 5 false).2.2.2.path = [] := by
  decide

/-- C9: `write_block` with `key_has_block = true` on a block already in
the block tree returns `(is_new = false, block)` and leaves the state (and
on the non-transactional backend, the compensation log) completely
unchanged: no refcount bump, no path-tree touch, on both backends. -/
theorem c9_write_block_key_has_block_frame (st : FjallState) (tx : NotxTx)
    (hash : BlockID) (b : Block) (dataLen : Nat)
    (h : treeGet st.blocks hash = some b) :
    fjallWriteBlock st hash dataLen true = (st, false, b) ∧
    notxWriteBlock tx st hash dataLen true = (tx, st, false, b) := by
  constructor <;> simp [fjallWriteBlock, notxWriteBlock, h]

/-- Witness for C9 at a one-block state. -/
theorem c9_write_block_key_has_block_frame_witness :
    treeGet (FjallState.mk [([3, 7], Block.new 9 [3])] [([3], [3, 7])]).blocks [3, 7]
        = some (Block.new 9 [3]) ∧
    fjallWriteBlock (FjallState.mk [([3, 7], Block.new 9 [3])] [([3], [3, 7])]) [3, 7] 9 true
        = (FjallState.mk [([3, 7], Block.new 9 [3])] [([3], [3, 7])], false, Block.new 9 [3]) := by
  refine ⟨by decide, ?_⟩
  exact (c9_write_block_key_has_block_frame
    (FjallState.mk [([3, 7], Block.new 9 [3])] [([3], [3, 7])])
    NotxTx.new [3, 7] (Block.new 9 [3]) 9 (by decide)).1

theorem rcInvariant_deleteBlocksStep_fold (ids : List BlockID)
    (blocks : KvTree BlockID Block) (acc : List Block)
    (h : rcInvariant blocks) :
    rcInvariant (ids.foldl deleteBlocksStep (blocks, acc)).1 := by
  induction ids generalizing blocks acc with
  | nil => exact h
  | cons x rest ih =>
      simp only [List.foldl_cons]
      have hstep : rcInvariant (deleteBlocksStep (blocks, acc) x).1 := by
        intro k b' hk
        simp only [deleteBlocksStep] at hk
        cases hx : treeGet blocks x with
        | none =>
            simp only [hx] at hk
            exact h k b' hk
        | some b =>
            simp only [hx] at hk
            by_cases hrc : b.rc = 1
            · simp only [hrc, beq_self_eq_true, if_true] at hk
              rw [treeGet_treeRemove] at hk
              by_cases hxk : x = k
              · simp [hxk] at hk
              · rw [if_neg hxk] at hk
                exact h k b' hk
            · have hbeq : (b.rc == 1) = false := by simp [hrc]
              simp only [hbeq, Bool.false_eq_true, if_false] at hk
              rw [treeGet_treeInsert] at hk
              by_cases hxk : x = k
              · rw [if_pos hxk] at hk
                have hb := h x b hx
                have h2 : 2 ≤ b.rc := by omega
                cases hk
                simp [Block.decrementRefcount]
                omega
              · rw [if_neg hxk] at hk
                exact h k b' hk
      have hres := ih (deleteBlocksStep (blocks, acc) x).1
        (deleteBlocksStep (blocks, acc) x).2 hstep
      simpa using hres

/-- C4: the `rc ≥ 1` invariant.  `write_block` creates new blocks with
`rc = 1` and only increments existing refcounts, `delete_object` removes
an `rc == 1` block instead of storing `rc = 0`, and both preserve the
invariant that every block in the block tree has a positive refcount. -/
theorem c4_rc_invariant_preserved (st : FjallState) (hash : BlockID)
    (dataLen : Nat) (keyHasBlock : Bool) (bucket : KvTree Bytes Object)
    (key : Bytes) (h : rcInvariant st.blocks) :
    rcInvariant (fjallWriteBlock st hash dataLen keyHasBlock).1.blocks ∧
    ((fjallWriteBlock st hash dataLen keyHasBlock).2.1 = true →
      (fjallWriteBlock st hash dataLen keyHasBlock).2.2.rc = 1) ∧
    rcInvariant (deleteObjectTx bucket st.blocks key).2.1 := by
  refine ⟨?_, ?_, ?_⟩
  · intro k b' hk
    simp only [fjallWriteBlock] at hk
    cases hx : treeGet st.blocks hash with
    | some b =>
        simp only [hx] at hk
        by_cases hkh : keyHasBlock = true
        · simp only [hkh, if_true] at hk
          exact h k b' hk
        · simp only [hkh, Bool.false_eq_true, if_false] at hk
          rw [treeGet_treeInsert] at hk
          by_cases hxk : hash = k
          · rw [if_pos hxk] at hk
            cases hk
            simp [Block.incrementRefcount]
          · rw [if_neg hxk] at hk
            exact h k b' hk
    | none =>
        simp only [hx] at hk
        rw [treeGet_treeInsert] at hk
        by_cases hxk : hash = k
        · rw [if_pos hxk] at hk
          cases hk
          simp [Block.new]
        · rw [if_neg hxk] at hk
          exact h k b' hk
  · simp only [fjallWriteBlock]
    cases hx : treeGet st.blocks hash with
    | some b =>
        by_cases hkh : keyHasBlock = true <;> simp [hkh]
    | none =>
        simp [Block.new]
  · simp only [deleteObjectTx]
    cases hobj : treeGet bucket key with
    | none => exact h
    | some obj =>
        simp only
        exact rcInvariant_deleteBlocksStep_fold obj.blocks st.blocks [] h

/-- Witness for C4 on the empty state. -/
theorem c4_rc_invariant_preserved_witness :
    rcInvariant (fjallWriteBlock (FjallState.mk [] []) [5] 3 false).1.blocks ∧
    ((fjallWriteBlock (FjallState.mk [] []) [5] 3 false).2.1 = true →
      (fjallWriteBlock (FjallState.mk [] []) [5] 3 false).2.2.rc = 1) ∧
    rcInvariant (deleteObjectTx [] (FjallState.mk [] []).blocks [7]).2.1 :=
  c4_rc_invariant_preserved (FjallState.mk [] []) [5] 3 false [] [7]
    (fun k b hk => by simp [treeGet] at hk)

/-- A non-transactional transaction: a sequence of `write_block` calls
`(block_hash, data_len, key_has_block)` threaded through the log and the
trees. -/
def notxRun : List (BlockID × Nat × Bool) → NotxTx × FjallState →
    NotxTx × FjallState
  | [], r => r
  | (hash, dataLen, khb) :: rest, r =>
      let w := notxWriteBlock r.1 r.2 hash dataLen khb
      notxRun rest (w.1, w.2.1)

theorem notxRun_log_extends (ops : List (BlockID × Nat × Bool))
    (tx : NotxTx) (st : FjallState) :
    (∃ l, (notxRun ops (tx, st)).1.insertedBlocks = tx.insertedBlocks ++ l) ∧
    (∃ l, (notxRun ops (tx, st)).1.insertedPaths = tx.insertedPaths ++ l) := by
  induction ops generalizing tx st with
  | nil => exact ⟨⟨[], by simp [notxRun]⟩, ⟨[], by simp [notxRun]⟩⟩
  | cons op rest ih =>
      obtain ⟨hash, dataLen, khb⟩ := op
      simp only [notxRun]
      cases hx : treeGet st.blocks hash with
      | some b =>
          by_cases hkh : khb = true
          · simpa [notxWriteBlock, hx, hkh] using ih tx st
          · have hrec := ih { tx with insertedBlocks := tx.insertedBlocks ++ [hash] }
              { st with blocks := treeInsert st.blocks hash b.incrementRefcount }
            simp only [notxWriteBlock, hx, hkh, Bool.false_eq_true, if_false]
            obtain ⟨⟨l₁, hl₁⟩, ⟨l₂, hl₂⟩⟩ := hrec
            refine ⟨⟨[hash] ++ l₁, ?_⟩, ⟨l₂, ?_⟩⟩
            · simpa [List.append_assoc] using hl₁
            · simpa using hl₂
      | none =>
          have hrec := ih
            ⟨tx.insertedBlocks ++ [hash], tx.insertedPaths ++ [hash.take (findFreePathIdx st.paths hash)]⟩
            ⟨treeInsert st.blocks hash (Block.new dataLen (hash.take (findFreePathIdx st.paths hash))),
             treeInsert st.paths (hash.take (findFreePathIdx st.paths hash)) hash⟩
          simp only [notxWriteBlock, hx]
          obtain ⟨⟨l₁, hl₁⟩, ⟨l₂, hl₂⟩⟩ := hrec
          refine ⟨⟨[hash] ++ l₁, ?_⟩, ⟨[hash.take (findFreePathIdx st.paths hash)] ++ l₂, ?_⟩⟩
          · simpa [List.append_assoc] using hl₁
          · simpa [List.append_assoc] using hl₂

theorem notxRun_frame (ops : List (BlockID × Nat × Bool)) (tx : NotxTx)
    (st : FjallState) :
    (∀ k, k ∉ (notxRun ops (tx, st)).1.insertedBlocks →
      treeGet (notxRun ops (tx, st)).2.blocks k = treeGet st.blocks k) ∧
    (∀ p, p ∉ (notxRun ops (tx, st)).1.insertedPaths →
      treeGet (notxRun ops (tx, st)).2.paths p = treeGet st.paths p) := by
  induction ops generalizing tx st with
  | nil => exact ⟨fun k _ => rfl, fun p _ => rfl⟩
  | cons op rest ih =>
      obtain ⟨hash, dataLen, khb⟩ := op
      simp only [notxRun]
      cases hx : treeGet st.blocks hash with
      | some b =>
          by_cases hkh : khb = true
          · simpa [notxWriteBlock, hx, hkh] using ih tx st
          · simp only [notxWriteBlock, hx, hkh, Bool.false_eq_true, if_false]
            set tx' : NotxTx := { tx with insertedBlocks := tx.insertedBlocks ++ [hash] } with htx'
            set st' : FjallState :=
              { st with blocks := treeInsert st.blocks hash b.incrementRefcount } with hst'
            obtain ⟨ihb, ihp⟩ := ih tx' st'
            constructor
            · intro k hk
              have hne : k ≠ hash := by
                intro hc
                subst hc
                obtain ⟨⟨l₁, hl₁⟩, _⟩ := notxRun_log_extends rest tx' st'
                exact hk (by simp [hl₁, htx'])
              rw [ihb k hk]
              simp only [hst']
              rw [treeGet_treeInsert]
              exact if_neg (fun hc => hne hc.symm)
            · intro p hp
              rw [ihp p hp]
      | none =>
          simp only [notxWriteBlock, hx]
          set pth := hash.take (findFreePathIdx st.paths hash) with hpth
          set tx' : NotxTx :=
            ⟨tx.insertedBlocks ++ [hash], tx.insertedPaths ++ [pth]⟩ with htx'
          set st' : FjallState :=
            ⟨treeInsert st.blocks hash (Block.new dataLen pth),
             treeInsert st.paths pth hash⟩ with hst'
          obtain ⟨ihb, ihp⟩ := ih tx' st'
          constructor
          · intro k hk
            have hne : k ≠ hash := by
              intro hc
              subst hc
              obtain ⟨⟨l₁, hl₁⟩, _⟩ := notxRun_log_extends rest tx' st'
              exact hk (by simp [hl₁, htx'])
            rw [ihb k hk]
            simp only [hst']
            rw [treeGet_treeInsert]
            exact if_neg (fun hc => hne hc.symm)
          · intro p hp
            have hne : p ≠ pth := by
              intro hc
              subst hc
              obtain ⟨_, ⟨l₂, hl₂⟩⟩ := notxRun_log_extends rest tx' st'
              exact hp (by simp [hl₂, htx'])
            rw [ihp p hp]
            simp only [hst']
            rw [treeGet_treeInsert]
            exact if_neg (fun hc => hne hc.symm)

/-- C8 counterexample: a pre-existing block (`rc = 1`) whose refcount a
non-transactional `write_block` bumps is recorded in the compensation log,
so `rollback` removes it from the block tree entirely — the block does NOT
remain present, refuting the claim's preservation of pre-existing
blocks. -/
theorem c8_rollback_removes_preexisting_block :
    treeGet (FjallState.mk [([2, 2], Block.new 5 [2])] [([2], [2, 2])]).blocks [2, 2]
        = some (Block.new 5 [2]) ∧
    treeGet
      (notxRollback
        (notxRun [([2, 2], 5, false)]
          (NotxTx.new, FjallState.mk [([2, 2], Block.new 5 [2])] [([2], [2, 2])])).1
        (notxRun [([2, 2], 5, false)]
          (NotxTx.new, FjallState.mk [([2, 2], Block.new 5 [2])] [([2], [2, 2])])).2).blocks
      [2, 2] = none := by
  decide

/-- C8 amended: on the non-transactional backend `commit` is a no-op, and
`rollback` after a run of `write_block` calls removes from the block and
path trees exactly the keys recorded in the compensation log — the newly
inserted blocks and paths, but also any pre-existing block whose refcount
the transaction bumped, which is deleted outright — while every
unrecorded key keeps its pre-transaction value. -/
theorem c8_notx_commit_noop_rollback_removes_recorded
    (ops : List (BlockID × Nat × Bool)) (st : FjallState) :
    notxCommit (notxRun ops (NotxTx.new, st)).1 (notxRun ops (NotxTx.new, st)).2
        = (notxRun ops (NotxTx.new, st)).2 ∧
    (∀ k,
      treeGet
          (notxRollback (notxRun ops (NotxTx.new, st)).1
            (notxRun ops (NotxTx.new, st)).2).blocks k =
        if k ∈ (notxRun ops (NotxTx.new, st)).1.insertedBlocks then none
        else treeGet st.blocks k) ∧
    (∀ p,
      treeGet
          (notxRollback (notxRun ops (NotxTx.new, st)).1
            (notxRun ops (NotxTx.new, st)).2).paths p =
        if p ∈ (notxRun ops (NotxTx.new, st)).1.insertedPaths then none
        else treeGet st.paths p) := by
  refine ⟨rfl, ?_, ?_⟩
  · intro k
    simp only [notxRollback]
    rw [treeGet_foldl_remove]
    by_cases hk : k ∈ (notxRun ops (NotxTx.new, st)).1.insertedBlocks
    · simp [hk]
    · rw [if_neg hk, if_neg hk]
      exact (notxRun_frame ops NotxTx.new st).1 k hk
  · intro p
    simp only [notxRollback]
    rw [treeGet_foldl_remove]
    by_cases hp : p ∈ (notxRun ops (NotxTx.new, st)).1.insertedPaths
    · simp [hp]
    · rw [if_neg hp, if_neg hp]
      exact (notxRun_frame ops NotxTx.new st).2 p hp

theorem unlinkLoop_get_of_unlink_fails (unlinkOk rmPathOk : Bytes → Bool)
    (bs : List Block) (paths : KvTree Bytes BlockID) (disk : List Bytes)
    (p : Bytes) (hp : unlinkOk p = false) :
    treeGet (unlinkLoop unlinkOk rmPathOk bs paths disk).1 p =
      treeGet paths p := by
  induction bs generalizing paths disk with
  | nil => rfl
  | cons b rest ih =>
      by_cases hu : unlinkOk b.path = true
      · have hne : b.path ≠ p := fun hc => by
          rw [hc, hp] at hu
          exact Bool.false_ne_true hu
        by_cases hr : rmPathOk b.path = true
        · simp only [unlinkLoop, hu, hr, if_true]
          rw [ih (treeRemove paths b.path) (disk.filter (fun q => q ≠ b.path))]
          rw [treeGet_treeRemove]
          exact if_neg hne
        · have hr' : rmPathOk b.path = false := by
            cases hrb : rmPathOk b.path
            · rfl
            · exact absurd hrb hr
          simp only [unlinkLoop, hu, hr', Bool.false_eq_true, if_false, if_true]
          exact ih paths (disk.filter (fun q => q ≠ b.path))
      · have hu' : unlinkOk b.path = false := by
          cases hub : unlinkOk b.path
          · rfl
          · exact absurd hub hu
        simp [unlinkLoop, hu']

/-- C3: the deletion transaction (over the bucket and block trees only)
never modifies the path tree — if no unlink ever succeeds the path tree
is exactly as before — and for every block collected for deletion, a
failed unlink leaves its path entry untouched, while a path entry that
was present and is gone afterwards proves its unlink succeeded. -/
theorem c3_delete_defers_path_removal_to_unlink
    (unlinkOk rmPathOk : Bytes → Bool) (st : CasState) (key : Bytes) :
    ((∀ p, unlinkOk p = false) →
      (casDeleteObject unlinkOk rmPathOk st key).1.paths = st.paths) ∧
    (∀ b, b ∈ (casDeleteObject unlinkOk rmPathOk st key).2 →
      (unlinkOk b.path = false →
        treeGet (casDeleteObject unlinkOk rmPathOk st key).1.paths b.path =
          treeGet st.paths b.path) ∧
      (treeGet st.paths b.path ≠ none →
        treeGet (casDeleteObject unlinkOk rmPathOk st key).1.paths b.path = none →
        unlinkOk b.path = true)) := by
  constructor
  · intro hall
    simp only [casDeleteObject]
    cases hbs : (deleteObjectTx st.bucket st.blocks key).2.2 with
    | nil => rfl
    | cons b rest =>
        simp [unlinkLoop, hall b.path]
  · intro b _hb
    constructor
    · intro hfail
      simp only [casDeleteObject]
      exact unlinkLoop_get_of_unlink_fails unlinkOk rmPathOk _ st.paths st.disk
        b.path hfail
    · intro hpresent hgone
      cases hub : unlinkOk b.path
      · exfalso
        simp only [casDeleteObject] at hgone
        rw [unlinkLoop_get_of_unlink_fails unlinkOk rmPathOk _ st.paths st.disk
          b.path hub] at hgone
        exact hpresent hgone
      · rfl

/-- Witness for C3: one object owning one `rc = 1` block, with the unlink
oracle failing. -/
theorem c3_delete_defers_path_removal_to_unlink_witness :
    ((casDeleteObject (fun _ => false) (fun _ => true)
        (CasState.mk [([10], Object.mk 3 [1] 0 (ObjectData.SinglePart [[1]]))]
          [([1], Block.mk 3 [1] 1)] [([1], [1])] [[1]]) [10]).1.paths
      = [([1], [1])]) ∧
    (Block.mk 3 [1] 1 ∈ (casDeleteObject (fun _ => false) (fun _ => true)
        (CasState.mk [([10], Object.mk 3 [1] 0 (ObjectData.SinglePart [[1]]))]
          [([1], Block.mk 3 [1] 1)] [([1], [1])] [[1]]) [10]).2) ∧
    treeGet (casDeleteObject (fun _ => false) (fun _ => true)
        (CasState.mk [([10], Object.mk 3 [1] 0 (ObjectData.SinglePart [[1]]))]
          [([1], Block.mk 3 [1] 1)] [([1], [1])] [[1]]) [10]).1.paths [1]
      = treeGet [([1], ([1] : BlockID))] [1] := by
  refine ⟨?_, by decide, ?_⟩
  · exact (c3_delete_defers_path_removal_to_unlink (fun _ => false) (fun _ => true)
      (CasState.mk [([10], Object.mk 3 [1] 0 (ObjectData.SinglePart [[1]]))]
        [([1], Block.mk 3 [1] 1)] [([1], [1])] [[1]]) [10]).1 (fun _ => rfl)
  · exact ((c3_delete_defers_path_removal_to_unlink (fun _ => false) (fun _ => true)
      (CasState.mk [([10], Object.mk 3 [1] 0 (ObjectData.SinglePart [[1]]))]
        [([1], Block.mk 3 [1] 1)] [([1], [1])] [[1]]) [10]).2
      (Block.mk 3 [1] 1) (by decide)).1 rfl

/-- C6: `copy_object` writes the destination record with a refreshed
timestamp but never opens the block tree: the copied blocks' refcounts
stay at 1 instead of being bumped to 2, so deleting the source afterwards
removes the shared block from the block tree (and its file from disk)
while the destination still references it — the other copy is NOT left
readable. -/
theorem c6_copy_object_does_not_bump_refcounts :
    casCopyObject [([1], Block.mk 3 [1] 1)]
        [([10], Object.mk 3 [1] 0 (ObjectData.SinglePart [[1]]))] [] [10] [20] 99
      = some ([([1], Block.mk 3 [1] 1)],
          [([10], Object.mk 3 [1] 0 (ObjectData.SinglePart [[1]]))],
          [([20], Object.mk 3 [1] 99 (ObjectData.SinglePart [[1]]))],
          Object.mk 3 [1] 99 (ObjectData.SinglePart [[1]])) ∧
    treeGet [([1], Block.mk 3 [1] 1)] [1] = some (Block.mk 3 [1] 1) ∧
    (treeGet
      (casDeleteObject (fun _ => true) (fun _ => true)
        (CasState.mk [([10], Object.mk 3 [1] 0 (ObjectData.SinglePart [[1]]))]
          [([1], Block.mk 3 [1] 1)] [([1], [1])] [[1]]) [10]).1.blocks [1]
      = none) ∧
    (Object.mk 3 [1] 99 (ObjectData.SinglePart [[1]])).blocks = [[1]] := by
  refine ⟨?_, ?_, ?_, ?_⟩ <;> rfl

theorem bytesLt_irrefl (a : Bytes) : bytesLt a a = false := by
  induction a with
  | nil => rfl
  | cons x rest ih => simp [bytesLt, ih]

theorem bytesLt_trans {a b c : Bytes} (hab : bytesLt a b = true)
    (hbc : bytesLt b c = true) : bytesLt a c = true := by
  induction a generalizing b c with
  | nil =>
      cases b with
      | nil => simp [bytesLt] at hab
      | cons y bs =>
          cases c with
          | nil => simp [bytesLt] at hbc
          | cons z cs => simp [bytesLt]
  | cons x as ih =>
      cases b with
      | nil => simp [bytesLt] at hab
      | cons y bs =>
          cases c with
          | nil => simp [bytesLt] at hbc
          | cons z cs =>
              simp only [bytesLt, Bool.or_eq_true, Bool.and_eq_true,
                beq_iff_eq, decide_eq_true_eq] at hab hbc ⊢
              rcases hab with h₁ | ⟨h₁, h₁'⟩
              · rcases hbc with h₂ | ⟨h₂, h₂'⟩
                · exact Or.inl (Nat.lt_trans h₁ h₂)
                · exact Or.inl (h₂ ▸ h₁)
              · rcases hbc with h₂ | ⟨h₂, h₂'⟩
                · exact Or.inl (h₁ ▸ h₂)
                · exact Or.inr ⟨h₁.trans h₂, ih h₁' h₂'⟩

theorem bytesLt_trichotomy (a b : Bytes) :
    bytesLt a b = true ∨ a = b ∨ bytesLt b a = true := by
  induction a generalizing b with
  | nil =>
      cases b with
      | nil => exact Or.inr (Or.inl rfl)
      | cons y bs => exact Or.inl (by simp [bytesLt])
  | cons x as ih =>
      cases b with
      | nil => exact Or.inr (Or.inr (by simp [bytesLt]))
      | cons y bs =>
          rcases Nat.lt_trichotomy x y with hxy | hxy | hxy
          · exact Or.inl (by simp [bytesLt, hxy])
          · subst hxy
            rcases ih bs with h | h | h
            · exact Or.inl (by simp [bytesLt, h])
            · exact Or.inr (Or.inl (by simp [h]))
            · exact Or.inr (Or.inr (by simp [bytesLt, h]))
          · exact Or.inr (Or.inr (by simp [bytesLt, hxy]))

theorem bytesLt_asymm {a b : Bytes} (h : bytesLt a b = true) :
    bytesLt b a = false := by
  cases hba : bytesLt b a
  · rfl
  · have := bytesLt_trans h hba
    rw [bytesLt_irrefl] at this
    exact absurd this (by simp)

theorem hasPfx_not_lt {p k : Bytes} (h : hasPfx p k = true) :
    bytesLt k p = false := by
  induction p generalizing k with
  | nil => cases k <;> rfl
  | cons x ps ih =>
      cases k with
      | nil => simp [hasPfx] at h
      | cons y ks =>
          simp only [hasPfx, Bool.and_eq_true, beq_iff_eq] at h
          obtain ⟨rfl, hrest⟩ := h
          simp [bytesLt, ih hrest]

theorem lt_of_pfx_between {p c k : Bytes} (hk : hasPfx p k = true)
    (hpc : bytesLt p c = true) (hc : hasPfx p c = false) :
    bytesLt k c = true := by
  induction p generalizing c k with
  | nil => simp [hasPfx] at hc
  | cons x ps ih =>
      cases k with
      | nil => simp [hasPfx] at hk
      | cons y ks =>
          cases c with
          | nil => simp [bytesLt] at hpc
          | cons z cs =>
              simp only [hasPfx, Bool.and_eq_true, beq_iff_eq] at hk
              obtain ⟨rfl, hkrest⟩ := hk
              simp only [bytesLt, Bool.or_eq_true, Bool.and_eq_true,
                beq_iff_eq, decide_eq_true_eq] at hpc ⊢
              rcases hpc with h | ⟨h, h'⟩
              · exact Or.inl h
              · subst h
                simp only [hasPfx, beq_self_eq_true, Bool.true_and] at hc
                exact Or.inr ⟨rfl, ih hkrest h' hc⟩

theorem bytesLt_nil_right (a : Bytes) : bytesLt a [] = false := by
  cases a <;> rfl

theorem le_append_zero (s k : Bytes) :
    bytesLe (s ++ [0]) k = bytesLt s k := by
  induction s generalizing k with
  | nil =>
      cases k with
      | nil => rfl
      | cons y ks =>
          simp only [List.nil_append, bytesLe, bytesLt]
          have h0 : ¬ y < 0 := by omega
          simp [h0, bytesLt_nil_right]
  | cons x ss ih =>
      cases k with
      | nil => simp [bytesLe, bytesLt]
      | cons y ks =>
          have ih' := ih ks
          simp only [bytesLe] at ih' ⊢
          simp only [List.cons_append, bytesLt]
          rcases Nat.lt_trichotomy x y with h | h | h
          · have h1 : ¬ y < x := by omega
            have h2 : (y == x) = false := by
              simp only [beq_eq_false_iff_ne, ne_eq]
              omega
            simp [h, h1, h2]
          · subst h
            simp [Nat.lt_irrefl, ih']
          · have h1 : ¬ x < y := by omega
            have h2 : (x == y) = false := by
              simp only [beq_eq_false_iff_ne, ne_eq]
              omega
            simp [h, h1, h2]

theorem dropWhile_not_eq_filter (p : Bytes × Object → Bool)
    (l : List (Bytes × Object))
    (hs : List.Pairwise (fun a b => bytesLt a.1 b.1 = true) l)
    (hup : ∀ a b : Bytes × Object,
      bytesLt a.1 b.1 = true → p a = true → p b = true) :
    l.dropWhile (fun x => !(p x)) = l.filter p := by
  induction l with
  | nil => rfl
  | cons a rest ih =>
      rcases List.pairwise_cons.mp hs with ⟨ha, hrest⟩
      cases hpa : p a
      · simp only [List.dropWhile_cons, hpa, Bool.not_false, if_true,
          List.filter_cons, Bool.false_eq_true, if_false]
        exact ih hrest
      · simp only [List.dropWhile_cons, hpa, Bool.not_true,
          Bool.false_eq_true, if_false, List.filter_cons, if_true]
        congr 1
        exact (List.filter_eq_self.mpr
          (fun b hb => hup a b (ha b hb) hpa)).symm

/-- C7: `range_filter` yields exactly the keys bearing the prefix that are
strictly greater than the effective start (the max of continuation token
and `start_after`, missing treated as lowest); an effective start beyond
the prefix without bearing it yields nothing, and one strictly below the
prefix is ignored.  Holds for both backends, whose `range_filter` bodies
are identical. -/
theorem c7_range_filter_exact (tree : KvTree Bytes Object)
    (startAfter pfx continuationToken : Option Bytes)
    (hs : List.Pairwise (fun a b => bytesLt a.1 b.1 = true) tree) :
    rangeFilterModel tree startAfter pfx continuationToken =
      rangeFilterListing tree startAfter pfx continuationToken := by
  unfold rangeFilterModel rangeFilterListing
  cases hpfx : pfx with
  | none =>
      cases hes : effectiveStart continuationToken startAfter with
      | none => simp
      | some c =>
          simp only
          refine List.filter_congr ?_
          intro kv _
          simp [le_append_zero]
  | some p =>
      cases hes : effectiveStart continuationToken startAfter with
      | none =>
          simp only
          refine List.filter_congr ?_
          intro kv _
          simp
      | some c =>
          simp only
          by_cases hg1 : (bytesLt p c && !(hasPfx p c)) = true
          · rw [if_pos hg1]
            rcases Bool.and_eq_true_iff.mp hg1 with ⟨hlt, hnp⟩
            have hnp' : hasPfx p c = false := by
              cases h : hasPfx p c
              · rfl
              · rw [h] at hnp
                simp at hnp
            refine (List.filter_eq_nil_iff.mpr ?_).symm
            intro kv _
            cases hk : hasPfx p kv.1
            · simp
            · have hkc := lt_of_pfx_between hk hlt hnp'
              have := bytesLt_asymm hkc
              simp [this]
          · rw [if_neg hg1]
            by_cases hg2 : bytesLt c p = true
            · rw [if_pos hg2]
              refine List.filter_congr ?_
              intro kv _
              cases hk : hasPfx p kv.1
              · simp
              · have hkp : bytesLt kv.1 p = false := hasPfx_not_lt hk
                have hck : bytesLt c kv.1 = true := by
                  rcases bytesLt_trichotomy p kv.1 with h | h | h
                  · exact bytesLt_trans hg2 h
                  · rw [← h]
                    exact hg2
                  · rw [h] at hkp
                    exact absurd hkp (by simp)
                simp [hck]
            · have hg2' : bytesLt c p = false := by
                cases h : bytesLt c p
                · rfl
                · exact absurd h hg2
              rw [if_neg (by simp [hg2'])]
              have hid : (fun kv : Bytes × Object => bytesLe kv.1 c) =
                  (fun kv : Bytes × Object => !(bytesLt c kv.1)) := rfl
              rw [hid]
              rw [dropWhile_not_eq_filter (fun kv => bytesLt c kv.1)
                (tree.filter (fun kv => hasPfx p kv.1)) (hs.filter _)
                (fun a b hab ha => bytesLt_trans ha hab)]
              rw [List.filter_filter]
              refine List.filter_congr ?_
              intro kv _
              rw [Bool.and_comm]

/-- Witness for C7 on a five-key bucket with prefix and start-after. -/
theorem c7_range_filter_exact_witness :
    List.Pairwise (fun a b : Bytes × Object => bytesLt a.1 b.1 = true)
      [([1], Object.mk 1 [] 0 (ObjectData.Inline [7])),
       ([2, 1], Object.mk 1 [] 0 (ObjectData.Inline [7])),
       ([2, 2], Object.mk 1 [] 0 (ObjectData.Inline [7])),
       ([3], Object.mk 1 [] 0 (ObjectData.Inline [7]))] ∧
    rangeFilterModel
      [([1], Object.mk 1 [] 0 (ObjectData.Inline [7])),
       ([2, 1], Object.mk 1 [] 0 (ObjectData.Inline [7])),
       ([2, 2], Object.mk 1 [] 0 (ObjectData.Inline [7])),
       ([3], Object.mk 1 [] 0 (ObjectData.Inline [7]))]
      (some [2, 1]) (some [2]) none =
    rangeFilterListing
      [([1], Object.mk 1 [] 0 (ObjectData.Inline [7])),
       ([2, 1], Object.mk 1 [] 0 (ObjectData.Inline [7])),
       ([2, 2], Object.mk 1 [] 0 (ObjectData.Inline [7])),
       ([3], Object.mk 1 [] 0 (ObjectData.Inline [7]))]
      (some [2, 1]) (some [2]) none := by
  refine ⟨by decide, ?_⟩
  exact c7_range_filter_exact _ (some [2, 1]) (some [2]) none (by decide)

/-- A bucket holding 1001 objects. -/
def c10Tree : KvTree Bytes Object :=
  (List.range 1001).map
    (fun i => ([i / 256, i % 256], Object.mk 1 [] 0 (ObjectData.Inline [7])))

set_option maxRecDepth 100000 in
/-- C10 counterexample: a negative `max_keys` escapes the clamp — it is
only clamped from above — and `(key_count + 1) as usize` wraps around, so
`max_keys = -2` takes effectively everything: a 1001-object bucket comes
back in one untruncated response of 1001 objects, more than 1000. -/
theorem c10_negative_max_keys_returns_over_1000 :
    listObjects c10Tree none none (some (-2)) = some (c10Tree, false, none) ∧
    1000 < c10Tree.length := by
  constructor
  · rfl
  · simp [c10Tree]

theorem listObjectsPage_spec (tree : KvTree Bytes Object)
    (pfx marker : Option Bytes) (kcInt : Int) (h0 : 0 ≤ kcInt)
    (h1 : kcInt ≤ 1000) :
    ∃ contents truncated nextMarker,
      listObjectsPage tree pfx marker kcInt =
        some (contents, truncated, nextMarker) ∧
      contents.length ≤ 1000 ∧
      (truncated = true ↔
        contents.length < (listObjectsMatching tree pfx marker).length) ∧
      (marker = none → nextMarker = none) := by
  have hpow : (2 : Int) ^ 64 = 18446744073709551616 := by norm_num
  have hpowN : (2 : Nat) ^ 64 = 18446744073709551616 := by norm_num
  have fact1 : asUsize (kcInt + 1) = kcInt.toNat + 1 := by
    unfold asUsize
    rw [hpow]
    omega
  have fact2 : (asUsize kcInt + 1) % 2 ^ 64 = kcInt.toNat + 1 := by
    unfold asUsize
    rw [hpow, hpowN]
    omega
  have hkc1000 : kcInt.toNat ≤ 1000 := by omega
  simp only [listObjectsPage, fact1, fact2]
  set m := listObjectsMatching tree pfx marker with hm
  by_cases hM : kcInt.toNat + 1 ≤ m.length
  · have hlen : (m.take (kcInt.toNat + 1)).length = kcInt.toNat + 1 := by
      rw [List.length_take]
      omega
    have hne : m.take (kcInt.toNat + 1) ≠ [] := by
      intro hc
      rw [hc] at hlen
      simp at hlen
    have hex : ∃ last, (m.take (kcInt.toNat + 1)).getLast? = some last := by
      cases hob : (m.take (kcInt.toNat + 1)).getLast? with
      | some l => exact ⟨l, rfl⟩
      | none => exact absurd (List.getLast?_eq_none_iff.mp hob) hne
    obtain ⟨last, hlast⟩ := hex
    refine ⟨(m.take (kcInt.toNat + 1)).dropLast, true,
      marker.map (fun _ => last.1), ?_, ?_, ?_, ?_⟩
    · simp only [hlen, beq_self_eq_true, if_true, hlast]
      cases marker <;> rfl
    · rw [List.length_dropLast, hlen]
      omega
    · rw [List.length_dropLast, hlen]
      constructor
      · intro _
        omega
      · intro _
        rfl
    · intro hmk
      subst hmk
      rfl
  · have hlen : (m.take (kcInt.toNat + 1)).length = m.length := by
      rw [List.length_take]
      omega
    have htake : m.take (kcInt.toNat + 1) = m := by
      apply List.take_of_length_le
      omega
    have hfalse : ((m.take (kcInt.toNat + 1)).length == kcInt.toNat + 1) = false := by
      rw [hlen]
      simp only [beq_eq_false_iff_ne, ne_eq]
      omega
    refine ⟨m.take (kcInt.toNat + 1), false, none, ?_, ?_, ?_, ?_⟩
    · rw [hfalse]
      simp
    · rw [hlen]
      omega
    · rw [htake]
      simp
    · intro _
      rfl

/-- C10 amended: for a missing or non-negative `max_keys` the response
never exceeds 1000 objects (values above 1000 are clamped to 1000), it is
marked truncated exactly when more matching keys remain beyond the
returned page, and `next_marker` is populated only when the request
supplied a marker; a negative `max_keys` escapes the clamp and can return
more than 1000 objects. -/
theorem c10_list_objects_clamped_for_nonneg (tree : KvTree Bytes Object)
    (pfx marker : Option Bytes) (maxKeys : Option Int)
    (h : ∀ mk, maxKeys = some mk → 0 ≤ mk) :
    ∃ contents truncated nextMarker,
      listObjects tree pfx marker maxKeys =
        some (contents, truncated, nextMarker) ∧
      contents.length ≤ 1000 ∧
      (truncated = true ↔
        contents.length < (listObjectsMatching tree pfx marker).length) ∧
      (marker = none → nextMarker = none) := by
  cases maxKeys with
  | none =>
      exact listObjectsPage_spec tree pfx marker MAX_KEYS (by norm_num [MAX_KEYS])
        (by norm_num [MAX_KEYS])
  | some mk =>
      have h0 := h mk rfl
      unfold listObjects
      by_cases hgt : mk > MAX_KEYS
      · simp only [hgt, if_true]
        exact listObjectsPage_spec tree pfx marker MAX_KEYS
          (by norm_num [MAX_KEYS]) (by norm_num [MAX_KEYS])
      · simp only [hgt, if_false]
        exact listObjectsPage_spec tree pfx marker mk h0
          (by simp only [MAX_KEYS] at hgt; omega)

/-- Witness for C10 amended at `max_keys = 2` over a three-key bucket. -/
theorem c10_list_objects_clamped_for_nonneg_witness :
    (∀ mk, (some (2 : Int) : Option Int) = some mk → 0 ≤ mk) ∧
    (∃ contents truncated nextMarker,
      listObjects [([1], Object.mk 1 [] 0 (ObjectData.Inline [7])),
          ([2], Object.mk 1 [] 0 (ObjectData.Inline [7])),
          ([3], Object.mk 1 [] 0 (ObjectData.Inline [7]))] none none (some 2) =
        some (contents, truncated, nextMarker) ∧
      contents.length ≤ 1000 ∧
      (truncated = true ↔
        contents.length <
          (listObjectsMatching [([1], Object.mk 1 [] 0 (ObjectData.Inline [7])),
            ([2], Object.mk 1 [] 0 (ObjectData.Inline [7])),
            ([3], Object.mk 1 [] 0 (ObjectData.Inline [7]))] none none).length) ∧
      ((none : Option Bytes) = none → nextMarker = none)) :=
  ⟨fun mk hmk => by
      cases hmk
      norm_num,
   c10_list_objects_clamped_for_nonneg _ none none (some 2)
     (fun mk hmk => by
       cases hmk
       norm_num)⟩

theorem chunkify_flatten_aux (n : Nat) :
    ∀ data : Bytes, data.length ≤ n → (chunkify data).flatten = data := by
  induction n with
  | zero =>
      intro data h
      cases data with
      | nil => simp [chunkify]
      | cons a rest => simp at h
  | succ n ih =>
      intro data h
      cases data with
      | nil => simp [chunkify]
      | cons a rest =>
          rw [chunkify]
          simp only [List.flatten_cons]
          rw [ih ((a :: rest).drop BLOCK_SIZE)
            (by simp [BLOCK_SIZE] at h ⊢; omega)]
          exact List.take_append_drop _ _

theorem chunkify_flatten (data : Bytes) : (chunkify data).flatten = data :=
  chunkify_flatten_aux data.length data (Nat.le_refl _)

theorem insertByKey_perm (p : Nat × BlockID) (l : List (Nat × BlockID)) :
    (insertByKey p l).Perm (p :: l) := by
  induction l with
  | nil => simp [insertByKey]
  | cons q rest ih =>
      by_cases h : p.1 ≤ q.1
      · simp [insertByKey, h]
      · simp only [insertByKey, h, if_false]
        exact (ih.cons q).trans (List.Perm.swap p q rest)

theorem sortByKey_perm (l : List (Nat × BlockID)) : (sortByKey l).Perm l := by
  induction l with
  | nil => simp [sortByKey]
  | cons p rest ih =>
      have : sortByKey (p :: rest) = insertByKey p (sortByKey rest) := rfl
      rw [this]
      exact (insertByKey_perm p (sortByKey rest)).trans (ih.cons p)

theorem insertByKey_pairwise (p : Nat × BlockID) (l : List (Nat × BlockID))
    (h : l.Pairwise (fun a b => a.1 ≤ b.1)) :
    (insertByKey p l).Pairwise (fun a b => a.1 ≤ b.1) := by
  induction l with
  | nil => simp [insertByKey]
  | cons q rest ih =>
      rcases List.pairwise_cons.mp h with ⟨hq, hrest⟩
      by_cases hpq : p.1 ≤ q.1
      · simp only [insertByKey, hpq, if_true]
        refine List.pairwise_cons.mpr ⟨?_, h⟩
        intro b hb
        rcases List.mem_cons.mp hb with rfl | hb
        · exact hpq
        · exact hpq.trans (hq b hb)
      · simp only [insertByKey, hpq, if_false]
        refine List.pairwise_cons.mpr ⟨?_, ih hrest⟩
        intro b hb
        have hb' := (insertByKey_perm p rest).mem_iff.mp hb
        rcases List.mem_cons.mp hb' with rfl | hb'
        · omega
        · exact hq b hb'

theorem sortByKey_pairwise (l : List (Nat × BlockID)) :
    (sortByKey l).Pairwise (fun a b => a.1 ≤ b.1) := by
  induction l with
  | nil => simp [sortByKey]
  | cons p rest ih => exact insertByKey_pairwise p (sortByKey rest) ih

/-- The index keys of the result channel are distinct, so sorting any
arrival permutation of the indexed hashes restores exactly the
`enumerate`d list. -/
theorem sortByKey_of_perm_enum (l : List BlockID)
    (arrival : List (Nat × BlockID)) (h : arrival.Perm l.enum) :
    sortByKey arrival = l.enum := by
  have henum_lt : l.enum.Pairwise (fun a b => a.1 < b.1) := by
    have h1 : (l.enum.map Prod.fst).Pairwise (· < ·) := by
      rw [List.enum_map_fst]
      exact List.pairwise_lt_range _
    exact (List.pairwise_map.mp h1)
  have hperm : (sortByKey arrival).Perm l.enum :=
    (sortByKey_perm arrival).trans h
  have hle : (sortByKey arrival).Pairwise (fun a b => a.1 ≤ b.1) :=
    sortByKey_pairwise arrival
  have hnodup : (sortByKey arrival).Pairwise (fun a b => a.1 ≠ b.1) := by
    have hkeys : ((sortByKey arrival).map Prod.fst).Perm (l.enum.map Prod.fst) :=
      hperm.map Prod.fst
    have hnd : ((sortByKey arrival).map Prod.fst).Nodup := by
      rw [hkeys.nodup_iff, List.enum_map_fst]
      exact List.nodup_range _
    exact List.pairwise_map.mp hnd
  have hlt : (sortByKey arrival).Pairwise (fun a b => a.1 < b.1) := by
    have hand := hle.and hnodup
    exact hand.imp (fun hab => by omega)
  have hanti : IsAntisymm (Nat × BlockID) (fun a b => a.1 < b.1) :=
    ⟨fun a b h1 h2 => absurd h2 (by omega)⟩
  exact List.eq_of_perm_of_sorted hperm hlt henum_lt

/-- C2: a successful `store_bytes` run returns the MD5 digests of the
consecutive `BLOCK_SIZE` chunks strictly in input-byte order — whatever
order the concurrent workers delivered them, sorting on the zero-based
chunk index restores it — together with the digest of the whole stream
and the number of bytes consumed. -/
theorem c2_store_bytes_ordered_result (md5 : Bytes → BlockID) (data : Bytes)
    (arrival : List (Nat × BlockID))
    (h : arrival.Perm ((chunkify data).map md5).enum) :
    storeBytesResult md5 data arrival =
      ((chunkify data).map md5, md5 data, data.length) := by
  unfold storeBytesResult
  rw [sortByKey_of_perm_enum _ _ h, List.enum_map_snd, chunkify_flatten]
  rw [← List.length_flatten, chunkify_flatten]

/-- Witness for C2 on a 3-byte stream (one chunk). -/
theorem c2_store_bytes_ordered_result_witness :
    ([(0, ([9] : BlockID))]).Perm ((chunkify [1, 2, 3]).map (fun _ => [9])).enum ∧
    storeBytesResult (fun _ => [9]) [1, 2, 3] [(0, [9])] =
      ((chunkify [1, 2, 3]).map (fun _ => [9]), [9], 3) := by
  have hdrop : List.drop BLOCK_SIZE [1, 2, 3] = ([] : Bytes) := by decide
  have htake : List.take BLOCK_SIZE [1, 2, 3] = ([1, 2, 3] : Bytes) := by decide
  have hch : chunkify [1, 2, 3] = [[1, 2, 3]] := by
    rw [chunkify, hdrop, htake]
    simp [chunkify]
  have h : ([(0, ([9] : BlockID))]).Perm ((chunkify [1, 2, 3]).map (fun _ => [9])).enum := by
    rw [hch]
    exact List.Perm.refl _
  exact ⟨h, c2_store_bytes_ordered_result (fun _ => [9]) [1, 2, 3] [(0, [9])] h⟩

theorem storeBytesState_get_spec (md5 : Bytes → BlockID) (order : List Bytes)
    (blocks : KvTree BlockID Block) (paths : KvTree Bytes BlockID)
    (blocks' : KvTree BlockID Block) (paths' : KvTree Bytes BlockID)
    (hrun : storeBytesState md5 order (blocks, paths) = some (blocks', paths'))
    (k : BlockID) :
    (treeGet blocks k = none ∧ (order.map md5).count k = 0 →
      treeGet blocks' k = none) ∧
    (∀ n, treeGet blocks k = none → (order.map md5).count k = n + 1 →
      ∃ sz p, treeGet blocks' k = some (Block.mk sz p (n + 1))) ∧
    (∀ b, treeGet blocks k = some b →
      treeGet blocks' k =
        some (Block.mk b.size b.path (b.rc + (order.map md5).count k))) := by
  induction order generalizing blocks paths with
  | nil =>
      simp only [storeBytesState, Option.some_inj, Prod.mk.injEq] at hrun
      obtain ⟨hb, hp⟩ := hrun
      subst hb
      refine ⟨?_, ?_, ?_⟩
      · intro hk
        simp [hk.1]
      · intro n _ hcount
        simp at hcount
      · intro b hb
        cases b
        simpa using hb
  | cons c rest ih =>
      simp only [storeBytesState] at hrun
      cases htx : storeChunkTx blocks paths (md5 c) c.length with
      | none => rw [htx] at hrun; exact absurd hrun (by simp)
      | some res =>
          rw [htx] at hrun
          simp only [storeChunkTx] at htx
          cases hc : treeGet blocks (md5 c) with
          | some b =>
              obtain ⟨bsz, bpa, brc⟩ := b
              rw [hc] at htx
              simp only [Option.some_inj] at htx
              subst htx
              simp only at hrun
              have ihres := ih
                (treeInsert blocks (md5 c) (Block.mk bsz bpa brc).incrementRefcount)
                paths hrun
              by_cases hk : md5 c = k
              · subst hk
                refine ⟨?_, ?_, ?_⟩
                · intro hkk
                  rw [hc] at hkk
                  exact absurd hkk.1 (by simp)
                · intro n hnone _
                  rw [hc] at hnone
                  exact absurd hnone (by simp)
                · intro b' hb'
                  rw [hc] at hb'
                  have hbb : Block.mk bsz bpa brc = b' := by injection hb'
                  subst hbb
                  have hstep := ihres.2.2 (Block.mk bsz bpa brc).incrementRefcount
                    (by rw [treeGet_treeInsert]; simp)
                  rw [hstep]
                  simp only [Block.incrementRefcount, List.map_cons,
                    List.count_cons, beq_self_eq_true, if_true,
                    Option.some_inj, Block.mk.injEq]
                  exact ⟨trivial, trivial, by omega⟩
              · have hget : treeGet (treeInsert blocks (md5 c)
                    (Block.mk bsz bpa brc).incrementRefcount) k
                    = treeGet blocks k := by
                  rw [treeGet_treeInsert, if_neg hk]
                have hcount : ((c :: rest).map md5).count k = (rest.map md5).count k := by
                  simp [List.count_cons, hk]
                refine ⟨?_, ?_, ?_⟩
                · intro hkk
                  exact ihres.1 ⟨by rw [hget]; exact hkk.1, by rw [← hcount]; exact hkk.2⟩
                · intro n hnone hcnt
                  exact ihres.2.1 n (by rw [hget]; exact hnone) (by rw [← hcount]; exact hcnt)
                · intro b' hb'
                  rw [hcount]
                  exact ihres.2.2 b' (by rw [hget]; exact hb')
          | none =>
              rw [hc] at htx
              cases hfind : (List.range BLOCKID_SIZE).find?
                  (fun i => 1 ≤ i && (treeGet paths ((md5 c).take i)).isNone) with
              | none => rw [hfind] at htx; exact absurd htx (by simp)
              | some idx =>
                  rw [hfind] at htx
                  simp only [Option.some_inj] at htx
                  subst htx
                  simp only at hrun
                  have ihres := ih
                    (treeInsert blocks (md5 c)
                      (Block.new c.length ((md5 c).take idx)))
                    (treeInsert paths ((md5 c).take idx) (md5 c)) hrun
                  by_cases hk : md5 c = k
                  · subst hk
                    refine ⟨?_, ?_, ?_⟩
                    · intro hkk
                      exact absurd hkk.2 (by simp [List.count_cons])
                    · intro n _ hcnt
                      have hstep := ihres.2.2 (Block.new c.length ((md5 c).take idx))
                        (by rw [treeGet_treeInsert]; simp)
                      rw [hstep]
                      refine ⟨c.length, (md5 c).take idx, ?_⟩
                      simp only [List.map_cons, List.count_cons, beq_self_eq_true,
                        if_true] at hcnt
                      simp only [Block.new, Option.some_inj, Block.mk.injEq]
                      exact ⟨trivial, trivial, by omega⟩
                    · intro b' hb'
                      rw [hc] at hb'
                      exact absurd hb' (by simp)
                  · have hget : treeGet (treeInsert blocks (md5 c)
                        (Block.new c.length ((md5 c).take idx))) k
                        = treeGet blocks k := by
                      rw [treeGet_treeInsert, if_neg hk]
                    have hcount : ((c :: rest).map md5).count k = (rest.map md5).count k := by
                      simp [List.count_cons, hk]
                    refine ⟨?_, ?_, ?_⟩
                    · intro hkk
                      exact ihres.1 ⟨by rw [hget]; exact hkk.1,
                        by rw [← hcount]; exact hkk.2⟩
                    · intro n hnone hcnt
                      exact ihres.2.1 n (by rw [hget]; exact hnone)
                        (by rw [← hcount]; exact hcnt)
                    · intro b' hb'
                      rw [hcount]
                      exact ihres.2.2 b' (by rw [hget]; exact hb')

theorem storeBytesState_all_present (md5 : Bytes → BlockID)
    (order : List Bytes) (blocks : KvTree BlockID Block)
    (paths : KvTree Bytes BlockID)
    (hall : ∀ c ∈ order, (treeGet blocks (md5 c)).isSome = true) :
    ∃ blocks',
      storeBytesState md5 order (blocks, paths) = some (blocks', paths) ∧
      blocks'.length = blocks.length ∧
      (∀ k, (treeGet blocks' k).isSome = (treeGet blocks k).isSome) := by
  induction order generalizing blocks with
  | nil => exact ⟨blocks, rfl, rfl, fun k => rfl⟩
  | cons c rest ih =>
      have hc := hall c (by simp)
      cases hb : treeGet blocks (md5 c) with
      | none =>
          rw [hb] at hc
          simp at hc
      | some b =>
          have hall' : ∀ c' ∈ rest,
              (treeGet (treeInsert blocks (md5 c) b.incrementRefcount)
                (md5 c')).isSome = true := by
            intro c' hc'
            rw [treeGet_treeInsert]
            by_cases h : md5 c = md5 c'
            · simp [h]
            · rw [if_neg h]
              exact hall c' (by simp [hc'])
          obtain ⟨blocks', hrun, hlen, hdom⟩ :=
            ih (treeInsert blocks (md5 c) b.incrementRefcount) hall'
          refine ⟨blocks', ?_, ?_, ?_⟩
          · simp only [storeBytesState, storeChunkTx, hb]
            exact hrun
          · rw [hlen]
            exact treeInsert_length_of_present blocks (md5 c) b _ hb
          · intro k
            rw [hdom k, treeGet_treeInsert]
            by_cases h : md5 c = k
            · subst h
              simp [hb]
            · rw [if_neg h]

/-- C5: writing the same payload twice creates each block once.  From a
state where none of the payload's chunk hashes are present, after a first
successful `store_bytes` run (its per-chunk transactions committing in any
order), a second run of the same payload succeeds, returns the same
BlockID list, adds no entry to the block tree (same cardinality, same
keys, no new path entries), and doubles each referenced block's refcount
from its multiplicity `m` in the payload to `2 * m`. -/
theorem c5_dedup_second_write_doubles_rc (md5 : Bytes → BlockID)
    (data : Bytes) (order1 order2 : List Bytes)
    (blocks0 blocks1 : KvTree BlockID Block)
    (paths0 paths1 : KvTree Bytes BlockID)
    (ho1 : order1.Perm (chunkify data)) (ho2 : order2.Perm (chunkify data))
    (hfresh : ∀ c ∈ chunkify data, treeGet blocks0 (md5 c) = none)
    (hrun1 : storeBytesState md5 order1 (blocks0, paths0) =
      some (blocks1, paths1)) :
    ∃ blocks2,
      storeBytesState md5 order2 (blocks1, paths1) = some (blocks2, paths1) ∧
      blocks2.length = blocks1.length ∧
      (∀ arrival1 arrival2,
        arrival1.Perm ((chunkify data).map md5).enum →
        arrival2.Perm ((chunkify data).map md5).enum →
        (storeBytesResult md5 data arrival2).1 =
          (storeBytesResult md5 data arrival1).1) ∧
      (∀ c ∈ chunkify data, ∃ sz p,
        treeGet blocks1 (md5 c) =
          some (Block.mk sz p (((chunkify data).map md5).count (md5 c))) ∧
        treeGet blocks2 (md5 c) =
          some (Block.mk sz p (2 * ((chunkify data).map md5).count (md5 c)))) := by
  have hcount1 : ∀ h : BlockID, (order1.map md5).count h =
      ((chunkify data).map md5).count h := fun h => (ho1.map md5).countP_eq _
  have hcount2 : ∀ h : BlockID, (order2.map md5).count h =
      ((chunkify data).map md5).count h := fun h => (ho2.map md5).countP_eq _
  have hpos : ∀ c ∈ chunkify data,
      0 < ((chunkify data).map md5).count (md5 c) := by
    intro c hc
    have hmem : md5 c ∈ (chunkify data).map md5 := List.mem_map_of_mem md5 hc
    cases hn : ((chunkify data).map md5).count (md5 c) with
    | zero => exact absurd (List.count_eq_zero.mp hn) (by simp [hmem])
    | succ n => omega
  have hblocks1 : ∀ c ∈ chunkify data, ∃ sz p,
      treeGet blocks1 (md5 c) =
        some (Block.mk sz p (((chunkify data).map md5).count (md5 c))) := by
    intro c hc
    have hp := hpos c hc
    obtain ⟨n, hn⟩ : ∃ n, ((chunkify data).map md5).count (md5 c) = n + 1 := by
      cases hcnt : ((chunkify data).map md5).count (md5 c) with
      | zero => omega
      | succ n => exact ⟨n, rfl⟩
    have hspec := (storeBytesState_get_spec md5 order1 blocks0 paths0 blocks1
      paths1 hrun1 (md5 c)).2.1 n (hfresh c hc) (by rw [hcount1, hn])
    rw [hn]
    exact hspec
  have hall : ∀ c' ∈ order2, (treeGet blocks1 (md5 c')).isSome = true := by
    intro c' hc'
    obtain ⟨sz, p, hsp⟩ := hblocks1 c' (ho2.mem_iff.mp hc')
    simp [hsp]
  obtain ⟨blocks2, hrun2, hlen, _hdom⟩ :=
    storeBytesState_all_present md5 order2 blocks1 paths1 hall
  refine ⟨blocks2, hrun2, hlen, ?_, ?_⟩
  · intro arrival1 arrival2 h1 h2
    unfold storeBytesResult
    rw [sortByKey_of_perm_enum _ _ h1, sortByKey_of_perm_enum _ _ h2]
  · intro c hc
    obtain ⟨sz, p, hsp⟩ := hblocks1 c hc
    refine ⟨sz, p, hsp, ?_⟩
    have hspec2 := (storeBytesState_get_spec md5 order2 blocks1 paths1 blocks2
      paths1 hrun2 (md5 c)).2.2 (Block.mk sz p
        (((chunkify data).map md5).count (md5 c))) hsp
    rw [hspec2, hcount2]
    simp only [Option.some_inj, Block.mk.injEq]
    exact ⟨trivial, trivial, by omega⟩

/-- Witness for C5: a 3-byte payload stored twice from the empty state. -/
theorem c5_dedup_second_write_doubles_rc_witness :
    ([[1, 2, 3]] : List Bytes).Perm (chunkify [1, 2, 3]) ∧
    (∀ c ∈ chunkify [1, 2, 3],
      treeGet ([] : KvTree BlockID Block) ((fun _ => ([1] : BlockID)) c) = none) ∧
    storeBytesState (fun _ => ([1] : BlockID)) [[1, 2, 3]] ([], []) =
      some ([([1], Block.mk 3 [1] 1)], [([1], [1])]) ∧
    (∃ blocks2,
      storeBytesState (fun _ => ([1] : BlockID)) [[1, 2, 3]]
          ([([1], Block.mk 3 [1] 1)], [([1], [1])]) =
        some (blocks2, [([1], [1])]) ∧
      blocks2.length = ([([1], Block.mk 3 [1] 1)] : KvTree BlockID Block).length ∧
      (∀ arrival1 arrival2,
        arrival1.Perm ((chunkify [1, 2, 3]).map (fun _ => ([1] : BlockID))).enum →
        arrival2.Perm ((chunkify [1, 2, 3]).map (fun _ => ([1] : BlockID))).enum →
        (storeBytesResult (fun _ => ([1] : BlockID)) [1, 2, 3] arrival2).1 =
          (storeBytesResult (fun _ => ([1] : BlockID)) [1, 2, 3] arrival1).1) ∧
      (∀ c ∈ chunkify [1, 2, 3], ∃ sz p,
        treeGet [([1], Block.mk 3 [1] 1)] ((fun _ => ([1] : BlockID)) c) =
          some (Block.mk sz p
            (((chunkify [1, 2, 3]).map (fun _ => ([1] : BlockID))).count
              ((fun _ => ([1] : BlockID)) c))) ∧
        treeGet blocks2 ((fun _ => ([1] : BlockID)) c) =
          some (Block.mk sz p
            (2 * ((chunkify [1, 2, 3]).map (fun _ => ([1] : BlockID))).count
              ((fun _ => ([1] : BlockID)) c))))) := by
  have hdrop : List.drop BLOCK_SIZE [1, 2, 3] = ([] : Bytes) := by decide
  have htake : List.take BLOCK_SIZE [1, 2, 3] = ([1, 2, 3] : Bytes) := by decide
  have hch : chunkify [1, 2, 3] = [[1, 2, 3]] := by
    rw [chunkify, hdrop, htake]
    simp [chunkify]
  have ho : ([[1, 2, 3]] : List Bytes).Perm (chunkify [1, 2, 3]) := by
    rw [hch]
  have hfresh : ∀ c ∈ chunkify [1, 2, 3],
      treeGet ([] : KvTree BlockID Block) ((fun _ => ([1] : BlockID)) c) = none :=
    fun c _ => rfl
  have hrun1 : storeBytesState (fun _ => ([1] : BlockID)) [[1, 2, 3]] ([], []) =
      some ([([1], Block.mk 3 [1] 1)], [([1], [1])]) := by decide
  exact ⟨ho, hfresh, hrun1,
    c5_dedup_second_write_doubles_rc (fun _ => [1]) [1, 2, 3] [[1, 2, 3]]
      [[1, 2, 3]] [] [([1], Block.mk 3 [1] 1)] [] [([1], [1])]
      ho ho hfresh hrun1⟩
